import Mathlib

/-!
Shallow embedding of `src/ldapsync.py` (MailRoute AD-LDAP-Sync-Script).

Python strings are modelled as `List Char` (`Str`); `str.lower` is a
character-wise `Char.toLower`, the Python `sub in s` substring test is
`strContains`, `s.split(sep)[i]` is recovered from `afterFirst`/`upToFirst`,
and `str.strip(chars)` is `pyStrip`.  Directory entries, the paged search
loop, the bind loop and the export pipeline are translated function by
function; network effects are made explicit by passing the sequence of
server responses (`PageOutcome`, `BindAttempt`) as an argument.  Python
code paths that raise an uncaught exception are modelled with `Option`
(`none` = the exception propagates to the caller).
-/

namespace LdapSync

/-- A Python string: a list of characters. -/
abbrev Str := List Char

/-- Python `s.lower()`: character-wise lowercasing. -/
def lower (s : Str) : Str := s.map Char.toLower

/-- Python `sub in s`: `sub` occurs as a contiguous substring of `s`. -/
def strContains : Str → Str → Bool
  | [], sub => sub.isPrefixOf ([] : Str)
  | c :: t, sub => sub.isPrefixOf (c :: t) || strContains t sub

/-- The suffix of `s` after the first occurrence of `sep`;
`none` when `sep` does not occur in `s`. -/
def afterFirst (sep : Str) : Str → Option Str
  | [] => if sep.isPrefixOf ([] : Str) then some [] else none
  | c :: t =>
    if sep.isPrefixOf (c :: t) then some (List.drop sep.length (c :: t))
    else afterFirst sep t

/-- The prefix of `s` strictly before the first occurrence of `sep`
(all of `s` when `sep` does not occur). -/
def upToFirst (sep : Str) : Str → Str
  | [] => []
  | c :: t => if sep.isPrefixOf (c :: t) then [] else c :: upToFirst sep t

/-- Python `s.split(sep)[1]` for a separator that occurs in `s`: the
segment between the end of the first occurrence of `sep` and the next
occurrence (or the end of the string). -/
def pySplitGet1 (sep s : Str) : Str :=
  upToFirst sep ((afterFirst sep s).getD [])

/-- Python `s.strip(chars)`: remove leading and trailing characters
belonging to `chars`. -/
def pyStrip (chars : Str) (s : Str) : Str :=
  ((s.dropWhile (fun c => chars.contains c)).reverse.dropWhile
    (fun c => chars.contains c)).reverse

/-- The `"smtp:"` proxy-address marker. -/
def smtpMarker : Str := ("smtp:").data

/-- The `"x400:"` proxy-address marker. -/
def x400Marker : Str := ("x400:").data

/-- `ADParser.prepare_email` (line 141): first raw value, lowercased.
The source indexes `val[0]`; every call site guards with a non-emptiness
truthiness check, so the empty-list default never occurs in a run. -/
def prepare_email (val : List Str) : Str := lower (val.headD [])

/-- `ADParser.prepare_aliases` (lines 144-158): drop values containing
`x400:` (case-insensitively) or a space; for values containing `smtp:`
keep `addr.lower().split("smtp:")[1]` (quotes adjusted); keep other values lowercased. -/
def prepare_aliases : List Str → List Str
  | [] => []
  | addr :: rest =>
    if strContains (lower addr) x400Marker then prepare_aliases rest
    else if strContains (lower addr) [' '] then prepare_aliases rest
    else if strContains (lower addr) smtpMarker then
      pySplitGet1 smtpMarker (lower addr) :: prepare_aliases rest
    else lower addr :: prepare_aliases rest




/-- The payload of an LDAP search result entry: either a real entry, whose
second component is a dict (it `has_key`), or a referral/control entry whose
second component is not a dict.  `ADParser.parse` (line 122) probes this with
`hasattr(entry[1], "has_key")` (quotes adjusted). -/
inductive EntryData where
  | dict (attrs : List (Str × List Str))
  | referral (vals : List Str)
deriving DecidableEq

/-- One element of the result list of `search_ext`/`result3`: a pair of a
distinguished name (None for referrals) and the attribute payload. -/
abbrev RawEntry := Option Str × EntryData

/-- The attribute configuration from `ADParser.__init__`:
`mail_attr` and `aliases_attrs` (default: the single attribute proxyAddresses). -/
structure Config where
  mail_attr : Str
  aliases_attrs : List Str

/-- Python `d.get(key)` on the attribute dict, as first-match lookup. -/
def dictGet (attrs : List (Str × List Str)) (key : Str) : Option (List Str) :=
  (attrs.find? (fun kv => kv.fst == key)).map Prod.snd

/-- The alias-merging loop of `ADParser.parse` (lines 123-127): walk
`aliases_attrs` in order, walk the values of each attribute in order, and append
a value only when it is not already present (`if alias not in aliases`). -/
def mergeAliases (aliases_attrs : List Str) (attrs : List (Str × List Str)) :
    List Str :=
  aliases_attrs.foldl
    (fun acc key =>
      ((dictGet attrs key).getD []).foldl
        (fun acc2 al => if acc2.contains al then acc2 else acc2 ++ [al])
        acc)
    []

/-- A normalized output record, one element of the list `parse` returns. -/
structure Record where
  email : Str
  aliases : List Str
deriving DecidableEq

/-- `ADParser._process_row` (lines 216-225) composed with the abstract
`_process_row` (lines 40-49) for the row `{email, aliases}`: apply the
`prepare_` rules (the raw values are lists, not strings, so the
`basestring` strip never fires), then drop aliases equal to the email and,
when the email contains `@`, aliases equal to `email.split("@")[0]` (quotes adjusted). -/
def process_row (mail : List Str) (aliases : List Str) : Record :=
  let email := prepare_email mail
  let als := (prepare_aliases aliases).filter (fun a => !(a == email))
  if strContains email ['@'] then
    { email := email,
      aliases := als.filter (fun a => !(a == upToFirst ['@'] email)) }
  else
    { email := email, aliases := als }

/-- The truthy-guarded limit test `if limit and (limit <= x)` shared by
`parse` (line 136) and `_get_ldap_data` (line 211): `None` and `0` are
falsy, so they disable the cutoff entirely. -/
def limitTest (limit : Option Nat) (x : Nat) : Bool :=
  match limit with
  | none => false
  | some n => !(n == 0) && decide (n ≤ x)

/-- The per-entry loop of `ADParser.parse` (lines 120-137): skip entries
whose payload is not a dict, skip entries whose `mail_attr` value is absent
(the `get` default, an empty string, is falsy) or an empty list (falsy), otherwise emit
`process_row` and stop once the truthy limit is reached (the record that
reaches the limit is still emitted, matching append-then-break). -/
def parseLoop (cfg : Config) (limit : Option Nat) :
    List RawEntry → Nat → List Record
  | [], _ => []
  | entry :: rest, entry_count =>
    match entry.2 with
    | EntryData.dict attrs =>
      match dictGet attrs cfg.mail_attr with
      | some (v :: vs) =>
        let row := process_row (v :: vs) (mergeAliases cfg.aliases_attrs attrs)
        if limitTest limit (entry_count + 1) then [row]
        else row :: parseLoop cfg limit rest (entry_count + 1)
      | _ => parseLoop cfg limit rest entry_count
    | EntryData.referral _ => parseLoop cfg limit rest entry_count

/-- `ADParser._set_error_from_ldap_exc` (lines 160-162):
splitting `str(exc)` at the key marker `desc` followed by
stripping closing-brace, double-quote and single-quote characters from both ends.  The tuple unpacking demands
exactly two split parts, i.e. exactly one occurrence of the marker in
`str(exc)`; otherwise a `ValueError` escapes, modelled as `none`. -/
def setErrorFromLdapExc (s : Str) : Option Str :=
  match afterFirst (("'desc': ").data) s with
  | none => none
  | some text =>
    if strContains text (("'desc': ").data) then none
    else
      some (pyStrip [Char.ofNat 39]
        (pyStrip [Char.ofNat 34] (pyStrip [Char.ofNat 125] text)))



/-- One round trip of the pagination loop as seen from the engine: the
`search_ext` call raised (`searchErr`), the `result3` call raised
(`resultErr`), or a page of entries arrived together with the paged-results
cookie (`cookie = false` models an absent or empty cookie). -/
inductive PageOutcome where
  | searchErr (s : Str)
  | resultErr (s : Str)
  | page (entries : List RawEntry) (cookie : Bool)
deriving DecidableEq

/-- Python `x or default` for the optional numeric `page_size` argument
(line 165): `None` and `0` fall back to the class default. -/
def pyOrNat (x : Option Nat) (d : Nat) : Nat :=
  match x with
  | none => d
  | some n => if n == 0 then d else n

/-- The attribute list sent with every `search_ext` request
(line 168): `attr_list = [self.mail_attr] + self.aliases_attrs`. -/
def attr_list (cfg : Config) : List Str := cfg.mail_attr :: cfg.aliases_attrs

/-- The `while True` pagination loop of `ADParser._get_ldap_data`
(lines 171-214), carrying the accumulator `accounts` and the page counter
`pages`.  On an LDAP error the error text is recorded and `[]` is returned
(dropping the accumulator); `none` models the uncaught `ValueError` from
`_set_error_from_ldap_exc` when `str(exc)` does not split into exactly two
parts.  After a page is appended the loop stops on an absent/empty cookie,
then on `limit and (limit <= page_size * pages)`.  An exhausted outcome
list (a server that stops answering) is modelled as a final empty page. -/
def getLdapDataGo (limit : Option Nat) (page_size : Nat) :
    List PageOutcome → List RawEntry → Nat → Option (List RawEntry × Option Str)
  | [], accounts, _ => some (accounts, none)
  | o :: rest, accounts, pages =>
    match o with
    | PageOutcome.searchErr s =>
      (setErrorFromLdapExc s).map (fun d => ([], some d))
    | PageOutcome.resultErr s =>
      (setErrorFromLdapExc s).map (fun d => ([], some d))
    | PageOutcome.page entries cookie =>
      if !cookie then some (accounts ++ entries, none)
      else if limitTest limit (page_size * (pages + 1)) then
        some (accounts ++ entries, none)
      else getLdapDataGo limit page_size rest (accounts ++ entries) (pages + 1)

/-- `ADParser._get_ldap_data` (lines 164-214): resolve the effective page
size (`page_size or self.page_size`, class default 500) and run the
pagination loop with an empty accumulator; every request carries
`attr_list` and the configured filter, and `outcomes` lists the responses of the server in order.  The second component of the result is the last-error
string recorded by the engine (`None` when no error occurred). -/
def getLdapData (outcomes : List PageOutcome) (limit : Option Nat)
    (page_size : Option Nat) : Option (List RawEntry × Option Str) :=
  getLdapDataGo limit (pyOrNat page_size 500) outcomes [] 0

/-- The outcome of the bind attempt against one server in `_ldap_bind`:
either `simple_bind_s` succeeded yielding a connection, or some step of the
attempt raised `ldap.LDAPError` whose `str` is `s`. -/
inductive BindAttempt where
  | ok (conn : Nat)
  | fail (s : Str)
deriving DecidableEq

/-- The server loop of `ADParser._ldap_bind` (lines 230-250): stop at the
first successful bind; on failure record the error text (whose extraction
can itself raise, modelled as `none`) and count the failure.  Returns the
connection variable, the failure count and the last recorded error.  A
handle initialized by a failed attempt is never retained: the all-failed
branch of `_ldap_bind` clears it, so failures leave the connection
component unchanged here. -/
def ldapBindGo : List BindAttempt → Option Nat → Nat → Option Str →
    Option (Option Nat × Nat × Option Str)
  | [], conn, failed, err => some (conn, failed, err)
  | BindAttempt.ok c :: _, _, failed, err => some (some c, failed, err)
  | BindAttempt.fail s :: rest, conn, failed, _err =>
    match setErrorFromLdapExc s with
    | none => none
    | some d => ldapBindGo rest conn (failed + 1) (some d)

/-- `ADParser._ldap_bind` (lines 227-257): run the server loop, then
`if failed_connections == len(self.ldap_servers)` clear the connection and
return `False`, else retain the connection and return `True`.  The result
is `(binded, retained connection, last error)`. -/
def ldap_bind (attempts : List BindAttempt) :
    Option (Bool × Option Nat × Option Str) :=
  match ldapBindGo attempts none 0 none with
  | none => none
  | some (conn, failed, err) =>
    if failed == attempts.length then some (false, none, err)
    else some (true, conn, err)

/-- The behaviour of the directory for one run: the per-server bind outcomes and
the per-round-trip search outcomes. -/
structure Env where
  attempts : List BindAttempt
  outcomes : List PageOutcome

/-- `ADParser.parse` (lines 111-139): bind (crash propagates as `none`);
on bind failure return `[]` without querying; on success fetch the raw
accounts (crash propagates), unbind, and run the per-entry loop. -/
def parse (cfg : Config) (env : Env) (limit : Option Nat)
    (page_size : Option Nat) : Option (List Record) :=
  match ldap_bind env.attempts with
  | none => none
  | some (binded, _, _) =>
    if binded then
      match getLdapData env.outcomes limit page_size with
      | none => none
      | some (accounts, _) => some (parseLoop cfg limit accounts 0)
    else some []

/-- A directory trace in which the server answers every request with a
page, the last one carrying an empty cookie: page `i` holds `ps[i]`. -/
def mkTrace : List (List RawEntry) → List PageOutcome
  | [] => []
  | l :: rest => PageOutcome.page l (!rest.isEmpty) :: mkTrace rest

/-- First-occurrence-wins deduplication, the collection order the spec gives
for the alias merge: keep the first occurrence of each value, drop the rest. -/
def firstWins : List Str → List Str
  | [] => []
  | a :: l => a :: (firstWins l).filter (fun b => !(b == a))

/-- The default configuration: `mail_attr` is the attribute mail,
`aliases_attrs` holding just proxyAddresses (lines 104-107). -/
def cfgM : Config :=
  { mail_attr := ("mail").data, aliases_attrs := [("proxyAddresses").data] }

/-- A contentless real entry, used to populate concrete pages. -/
def refEntry : RawEntry := (none, EntryData.dict [])

/-! ## Helper lemmas -/

theorem process_row_email (mail : List Str) (aliases : List Str) :
    (process_row mail aliases).email = prepare_email mail := by
  simp only [process_row]
  split <;> rfl

theorem process_row_email_not_mem (mail : List Str) (aliases : List Str) :
    (process_row mail aliases).email ∉ (process_row mail aliases).aliases := by
  simp only [process_row]
  split
  · simp
  · simp

theorem process_row_localpart_not_mem (mail : List Str) (aliases : List Str)
    (h : strContains (process_row mail aliases).email ['@'] = true) :
    upToFirst ['@'] (process_row mail aliases).email ∉
      (process_row mail aliases).aliases := by
  rw [process_row_email] at h
  simp only [process_row]
  rw [if_pos h]
  simp

theorem parseLoop_mem (cfg : Config) (limit : Option Nat) :
    ∀ (accounts : List RawEntry) (count : Nat) (r : Record),
    r ∈ parseLoop cfg limit accounts count →
    ∃ e ∈ accounts, ∃ attrs v vs, e.2 = EntryData.dict attrs ∧
      dictGet attrs cfg.mail_attr = some (v :: vs) ∧
      r = process_row (v :: vs) (mergeAliases cfg.aliases_attrs attrs) := by
  intro accounts
  induction accounts with
  | nil => intro count r hr; simp [parseLoop] at hr
  | cons entry rest ih =>
    intro count r hr
    obtain ⟨dn, ed⟩ := entry
    cases ed with
    | referral vals =>
      simp only [parseLoop] at hr
      obtain ⟨e, he, hspec⟩ := ih count r hr
      exact ⟨e, List.mem_cons_of_mem _ he, hspec⟩
    | dict attrs =>
      simp only [parseLoop] at hr
      rcases hm : dictGet attrs cfg.mail_attr with _ | ⟨_ | ⟨v, vs⟩⟩ <;>
        rw [hm] at hr
      · obtain ⟨e, he, hspec⟩ := ih count r hr
        exact ⟨e, List.mem_cons_of_mem _ he, hspec⟩
      · obtain ⟨e, he, hspec⟩ := ih count r hr
        exact ⟨e, List.mem_cons_of_mem _ he, hspec⟩
      · simp only at hr
        by_cases hl : limitTest limit (count + 1) = true
        · rw [if_pos hl] at hr
          rw [List.mem_singleton] at hr
          exact ⟨(dn, EntryData.dict attrs), List.mem_cons_self _ _,
            attrs, v, vs, rfl, hm, hr⟩
        · rw [if_neg hl] at hr
          rcases List.mem_cons.mp hr with h | h
          · exact ⟨(dn, EntryData.dict attrs), List.mem_cons_self _ _,
              attrs, v, vs, rfl, hm, h⟩
          · obtain ⟨e, he, hspec⟩ := ih (count + 1) r h
            exact ⟨e, List.mem_cons_of_mem _ he, hspec⟩

/-! ## Claim theorems -/

/-- C2 counterexample: an entry whose `mail` attribute is the non-empty
value list `[""]` passes the truthiness guard (`if mail:` tests the list,
not its first element), so `parse` emits a record whose email is the empty
string — refuting the claim that no emitted record has empty email. -/
theorem c2_counterexample :
    parse cfgM
      ⟨[BindAttempt.ok 0],
       [PageOutcome.page
          [(some (("cn=u").data),
            EntryData.dict [(("mail").data, [([] : Str)])])] false]⟩
      none none = some [{ email := [], aliases := [] }] := by decide

/-- C2 (amended): entries whose mail attribute is absent or whose value
list is empty are skipped before normalization, and the email of every emitted record is the lowercased first element of a non-empty mail value list —
but that first element may itself be the empty string, in which case a
record with empty email is emitted. -/
theorem c2_skip_empty_mail :
    (∀ cfg limit accounts r, r ∈ parseLoop cfg limit accounts 0 →
      ∃ e ∈ accounts, ∃ attrs v vs, e.2 = EntryData.dict attrs ∧
        dictGet attrs cfg.mail_attr = some (v :: vs) ∧ r.email = lower v) ∧
    (∀ cfg limit dn attrs rest count, dictGet attrs cfg.mail_attr = none →
      parseLoop cfg limit ((dn, EntryData.dict attrs) :: rest) count =
        parseLoop cfg limit rest count) ∧
    (∀ cfg limit dn attrs rest count, dictGet attrs cfg.mail_attr = some [] →
      parseLoop cfg limit ((dn, EntryData.dict attrs) :: rest) count =
        parseLoop cfg limit rest count) := by
  refine ⟨?_, ?_, ?_⟩
  · intro cfg limit accounts r hr
    obtain ⟨e, he, attrs, v, vs, hed, hm, hrow⟩ :=
      parseLoop_mem cfg limit accounts 0 r hr
    refine ⟨e, he, attrs, v, vs, hed, hm, ?_⟩
    rw [hrow, process_row_email]
    rfl
  · intro cfg limit dn attrs rest count hm
    simp [parseLoop, hm]
  · intro cfg limit dn attrs rest count hm
    simp [parseLoop, hm]

/-- C2 witness: the first component of the amended theorem applied to a
concrete one-entry run whose mail value is `["A@B"]`. -/
theorem c2_skip_empty_mail_witness :
    ∃ e ∈ [((none : Option Str),
        EntryData.dict [(("mail").data, [("A@B").data])])],
      ∃ attrs v vs, e.2 = EntryData.dict attrs ∧
        dictGet attrs cfgM.mail_attr = some (v :: vs) ∧
        ({ email := ("a@b").data, aliases := [] } : Record).email = lower v :=
  c2_skip_empty_mail.1 cfgM none
    [((none : Option Str), EntryData.dict [(("mail").data, [("A@B").data])])]
    { email := ("a@b").data, aliases := [] } (by decide)

/-- C7: the record-level post-process removes from the aliases every entry
equal to the email and, when the email contains `@`, every entry equal to
the local part; the concrete example of the spec holds, and every record the
per-entry loop emits satisfies the invariant. -/
theorem c7_self_alias_removal :
    (∀ mail als, (process_row mail als).email ∉ (process_row mail als).aliases ∧
      (strContains (process_row mail als).email ['@'] = true →
        upToFirst ['@'] (process_row mail als).email ∉
          (process_row mail als).aliases)) ∧
    (process_row [("user@example.com").data]
        [("user@example.com").data, ("USER").data, ("alt@example.com").data] =
      { email := ("user@example.com").data,
        aliases := [("alt@example.com").data] }) ∧
    (∀ cfg limit accounts r, r ∈ parseLoop cfg limit accounts 0 →
      r.email ∉ r.aliases ∧
      (strContains r.email ['@'] = true →
        upToFirst ['@'] r.email ∉ r.aliases)) := by
  refine ⟨?_, by decide, ?_⟩
  · intro mail als
    exact ⟨process_row_email_not_mem mail als,
      process_row_localpart_not_mem mail als⟩
  · intro cfg limit accounts r hr
    obtain ⟨e, he, attrs, v, vs, hed, hm, hrow⟩ :=
      parseLoop_mem cfg limit accounts 0 r hr
    rw [hrow]
    exact ⟨process_row_email_not_mem _ _, process_row_localpart_not_mem _ _⟩

/-- C7 witness: the emitted-record invariant applied to a concrete
one-entry run with email `a@b` and proxy address `smtp:c@d`. -/
theorem c7_self_alias_removal_witness :
    (("a@b").data : Str) ∉ ([("c@d").data] : List Str) ∧
    upToFirst ['@'] (("a@b").data) ∉ ([("c@d").data] : List Str) := by
  have h := c7_self_alias_removal.2.2 cfgM none
    [((none : Option Str),
      EntryData.dict [(("mail").data, [("a@b").data]),
        (("proxyAddresses").data, [("smtp:c@d").data])])]
    { email := ("a@b").data, aliases := [("c@d").data] } (by decide)
  exact ⟨h.1, h.2 (by decide)⟩

/-- A configuration in which the mail attribute also appears among the
alias attributes (reachable from the CLI via `--aliases-attr mail`). -/
def cfgDup : Config :=
  { mail_attr := ("mail").data, aliases_attrs := [("mail").data] }

/-- C9 counterexample: with `mail_attr = "mail"` also listed among
`aliases_attrs`, the attribute list sent with the search request is
`["mail", "mail"]`, which names `mail` twice — refuting the claim that the
request list is deduplicated. -/
theorem c9_counterexample :
    attr_list cfgDup = [("mail").data, ("mail").data] ∧
    ¬ (attr_list cfgDup).Nodup := by
  exact ⟨rfl, by decide⟩

/-- Substring containment holds exactly when `afterFirst` finds a suffix. -/
theorem strContains_eq_isSome (s sep : Str) :
    strContains s sep = (afterFirst sep s).isSome := by
  induction s with
  | nil => cases h : sep.isPrefixOf ([] : Str) <;>
      simp [strContains, afterFirst, h]
  | cons c t ih => cases h : sep.isPrefixOf (c :: t) <;>
      simp [strContains, afterFirst, h, ih]

/-- When `sep` does not occur in `s`, the prefix before its first
occurrence is all of `s`. -/
theorem upToFirst_eq_self (sep : Str) :
    ∀ s : Str, strContains s sep = false → upToFirst sep s = s := by
  intro s
  induction s with
  | nil => intro _; rfl
  | cons c t ih =>
    intro h
    simp only [strContains, Bool.or_eq_false_iff] at h
    simp [upToFirst, h.1, ih h.2]

/-- Modelled from the per-value rule the spec states for `prepare_aliases`, amended:
a value is kept when it contains neither `x400:` (case-insensitively) nor a
space (lowercasing does not affect spaces). -/
def aliasKept (addr : Str) : Bool :=
  !(strContains (lower addr) x400Marker) && !(strContains (lower addr) [' '])

/-- Modelled from the per-value rule the spec states for `prepare_aliases`, amended:
a kept value containing `smtp:` (case-insensitively) maps to the segment of
its lowercased form between the end of the first occurrence of the marker
and the next occurrence (the whole remaining suffix when the marker occurs
only once); any other kept value maps to its lowercased form. -/
def aliasNormalized (addr : Str) : Str :=
  if strContains (lower addr) smtpMarker then pySplitGet1 smtpMarker (lower addr)
  else lower addr

/-- C3 counterexample: for the raw value `"smtp:asmtp:b"` (marker occurs
twice) the code keeps `split("smtp:")[1] = "a"`, not the full substring
`"asmtp:b"` after the first occurrence, refuting the claim as stated. -/
theorem c3_counterexample :
    prepare_aliases [("smtp:asmtp:b").data] = [("a").data] ∧
    (afterFirst smtpMarker (lower (("smtp:asmtp:b").data))).getD [] =
      ("asmtp:b").data ∧
    (("a").data : Str) ≠ ("asmtp:b").data := by decide

/-- C3 (amended): `prepare_aliases` keeps exactly the values free of
`x400:` and spaces, in input order with no deduplication, mapping each kept
value through `aliasNormalized`; when the `smtp:` marker occurs exactly
once, the normalized value is precisely the lowercased suffix after the
marker, as the original claim stated. -/
theorem c3_prepare_aliases :
    (∀ val, prepare_aliases val = (val.filter aliasKept).map aliasNormalized) ∧
    (∀ addr r, afterFirst smtpMarker (lower addr) = some r →
      strContains r smtpMarker = false → aliasNormalized addr = r) := by
  constructor
  · intro val
    induction val with
    | nil => rfl
    | cons addr rest ih =>
      cases h1 : strContains (lower addr) x400Marker
      · cases h2 : strContains (lower addr) [' ']
        · cases h3 : strContains (lower addr) smtpMarker <;>
            simp [prepare_aliases, aliasKept, aliasNormalized, h1, h2, h3, ih]
        · simp [prepare_aliases, aliasKept, h1, h2, ih]
      · simp [prepare_aliases, aliasKept, h1, ih]
  · intro addr r h1 h2
    have hc : strContains (lower addr) smtpMarker = true := by
      rw [strContains_eq_isSome, h1]
      rfl
    rw [aliasNormalized, if_pos hc, pySplitGet1, h1, Option.getD_some]
    exact upToFirst_eq_self smtpMarker r h2

/-- C3 witness: the single-occurrence clause of the amended theorem at the
concrete value `"smtp:u@b"`. -/
theorem c3_prepare_aliases_witness :
    aliasNormalized (("smtp:u@b").data) = ("u@b").data :=
  c3_prepare_aliases.2 (("smtp:u@b").data) (("u@b").data) (by decide) (by decide)

theorem firstWins_sublist : ∀ l : List Str, List.Sublist (firstWins l) l := by
  intro l
  induction l with
  | nil => exact List.Sublist.refl []
  | cons a l ih =>
    simp only [firstWins]
    exact List.Sublist.cons₂ a ((List.filter_sublist _).trans ih)

theorem firstWins_mem : ∀ (l : List Str) (a : Str), a ∈ firstWins l ↔ a ∈ l := by
  intro l
  induction l with
  | nil => intro a; simp [firstWins]
  | cons b l ih =>
    intro a
    by_cases hab : a = b
    · subst hab; simp [firstWins]
    · simp [firstWins, List.mem_filter, ih, hab]

theorem firstWins_nodup : ∀ l : List Str, (firstWins l).Nodup := by
  intro l
  induction l with
  | nil => exact List.nodup_nil
  | cons a l ih =>
    simp only [firstWins]
    refine List.nodup_cons.mpr ⟨?_, ih.filter _⟩
    intro hmem
    rw [List.mem_filter] at hmem
    simp at hmem

/-- The collect-time deduplicating fold of `parse` keeps the first
occurrence of each value: folding the append-if-absent step over `l`
extends `acc` with the first-wins deduplication of `l`, restricted to
values not already accumulated. -/
theorem foldl_dedup_eq :
    ∀ (l acc : List Str),
      l.foldl (fun acc2 al => if acc2.contains al then acc2 else acc2 ++ [al])
          acc =
        acc ++ (firstWins l).filter (fun b => !(acc.contains b)) := by
  intro l
  induction l with
  | nil => intro acc; simp [firstWins]
  | cons a l ih =>
    intro acc
    by_cases h : a ∈ acc
    · have hc : acc.contains a = true := List.elem_eq_true_of_mem h
      rw [List.foldl_cons, if_pos hc, ih acc]
      simp only [firstWins, List.filter_cons, hc, Bool.not_true,
        Bool.false_eq_true, if_false, List.filter_filter]
      congr 1
      apply List.filter_congr
      intro x _
      by_cases hxa : x = a
      · subst hxa
        simp [hc]
        exact h
      · have hba : (x == a) = false := beq_false_of_ne hxa
        simp [hba]
    · have hc : acc.contains a = false := by
        cases hcc : acc.contains a
        · rfl
        · exact absurd (List.mem_of_elem_eq_true hcc) h
      rw [List.foldl_cons, if_neg (by rw [hc]; exact Bool.false_ne_true),
        ih (acc ++ [a])]
      simp only [firstWins, List.filter_cons, hc, Bool.not_false, if_true,
        List.filter_filter, List.append_assoc, List.singleton_append]
      refine congrArg _ (congrArg _ ?_)
      apply List.filter_congr
      intro x _
      by_cases hxa : x = a
      · subst hxa
        simp [List.contains]
      · have hba : (x == a) = false := beq_false_of_ne hxa
        by_cases hxacc : x ∈ acc <;> simp [List.contains, hba, hxacc, hxa]

/-- The nested attribute/value fold of the alias merge is the flat fold
over the concatenation of the attribute value lists. -/
theorem mergeAliases_foldl_flatten (attrs : List (Str × List Str)) :
    ∀ (al : List Str) (acc : List Str),
      al.foldl
        (fun acc key =>
          ((dictGet attrs key).getD []).foldl
            (fun acc2 v => if acc2.contains v then acc2 else acc2 ++ [v]) acc)
        acc =
      ((al.map (fun k => (dictGet attrs k).getD [])).flatten).foldl
        (fun acc2 v => if acc2.contains v then acc2 else acc2 ++ [v]) acc := by
  intro al
  induction al with
  | nil => intro acc; rfl
  | cons k al ih =>
    intro acc
    simp only [List.foldl_cons, List.map_cons, List.flatten_cons,
      List.foldl_append]
    exact ih _

/-- C5: the cross-attribute alias merge is first-occurrence-wins
deduplication (under exact, case-sensitive comparison) of the attribute
value lists concatenated in declaration order — duplicate-free, a
subsequence of the concatenation, with the same members — and consequently
two raw proxy addresses differing only in case both survive the merge and
normalize to the same lowercased address twice in the final record. -/
theorem c5_alias_merge :
    (∀ (aliases_attrs : List Str) (attrs : List (Str × List Str)),
      mergeAliases aliases_attrs attrs =
        firstWins
          ((aliases_attrs.map (fun k => (dictGet attrs k).getD [])).flatten) ∧
      (mergeAliases aliases_attrs attrs).Nodup ∧
      List.Sublist (mergeAliases aliases_attrs attrs)
        ((aliases_attrs.map (fun k => (dictGet attrs k).getD [])).flatten) ∧
      (∀ a, a ∈ mergeAliases aliases_attrs attrs ↔
        a ∈ (aliases_attrs.map (fun k => (dictGet attrs k).getD [])).flatten)) ∧
    (parseLoop cfgM none
        [(none, EntryData.dict
            [(("mail").data, [("e@x.y").data]),
             (("proxyAddresses").data,
               [("SMTP:A@B.C").data, ("smtp:a@b.c").data])])] 0 =
      [{ email := ("e@x.y").data,
         aliases := [("a@b.c").data, ("a@b.c").data] }] ∧
     ¬ ([("a@b.c").data, ("a@b.c").data] : List Str).Nodup) := by
  constructor
  · intro aliases_attrs attrs
    have heq : mergeAliases aliases_attrs attrs =
        firstWins
          ((aliases_attrs.map (fun k => (dictGet attrs k).getD [])).flatten) := by
      rw [mergeAliases, mergeAliases_foldl_flatten, foldl_dedup_eq]
      simp
    refine ⟨heq, ?_, ?_, ?_⟩
    · rw [heq]; exact firstWins_nodup _
    · rw [heq]; exact firstWins_sublist _
    · intro a; rw [heq]; exact firstWins_mem _ a
  · exact ⟨by decide, by decide⟩

theorem limitTest_none_eq_false (x : Nat) : limitTest none x = false := rfl

theorem limitTest_some_zero_eq_false (x : Nat) :
    limitTest (some 0) x = false := rfl

/-- With a positive limit and fewer than `limit` records already counted,
the limited per-entry loop is the truncation of the unlimited loop. -/
theorem parseLoop_take (cfg : Config) (limit : Nat) (hlim : 0 < limit) :
    ∀ (accounts : List RawEntry) (count : Nat), count < limit →
      parseLoop cfg (some limit) accounts count =
        (parseLoop cfg none accounts count).take (limit - count) := by
  intro accounts
  induction accounts with
  | nil => intro count _; simp [parseLoop]
  | cons entry rest ih =>
    intro count hcount
    obtain ⟨dn, ed⟩ := entry
    cases ed with
    | referral vals =>
      simp only [parseLoop]
      exact ih count hcount
    | dict attrs =>
      simp only [parseLoop]
      rcases hm : dictGet attrs cfg.mail_attr with _ | ⟨_ | ⟨v, vs⟩⟩
      · simp only []
        exact ih count hcount
      · simp only []
        exact ih count hcount
      · simp only []
        by_cases hl : limit ≤ count + 1
        · have h1 : limitTest (some limit) (count + 1) = true := by
            simp [limitTest]
            omega
          rw [if_pos h1, limitTest_none_eq_false]
          rw [if_neg (by simp : ¬ (false = true))]
          have h2 : limit - count = 1 := by omega
          rw [h2, List.take_succ_cons, List.take_zero]
        · have h1 : limitTest (some limit) (count + 1) = false := by
            simp [limitTest]
            omega
          rw [h1, limitTest_none_eq_false]
          rw [if_neg (by simp : ¬ (false = true)),
            if_neg (by simp : ¬ (false = true))]
          have h2 : limit - count = (limit - (count + 1)) + 1 := by omega
          rw [h2, List.take_succ_cons, ih (count + 1) (by omega)]

/-- C6: with a positive limit, the per-entry loop returns exactly the
first `limit` records of the unlimited run (so at most `limit` records),
and any successful `parse` run returns at most `limit` records — the exact
record-level cutoff, unlike the page-level approximate cutoff. -/
theorem c6_exact_cutoff (cfg : Config) (limit : Nat) (hlim : 0 < limit) :
    (∀ accounts, parseLoop cfg (some limit) accounts 0 =
      (parseLoop cfg none accounts 0).take limit) ∧
    (∀ env page_size out, parse cfg env (some limit) page_size = some out →
      out.length ≤ limit) := by
  have key : ∀ accounts, parseLoop cfg (some limit) accounts 0 =
      (parseLoop cfg none accounts 0).take limit := by
    intro accounts
    have h := parseLoop_take cfg limit hlim accounts 0 hlim
    simpa using h
  refine ⟨key, ?_⟩
  intro env page_size out hout
  rw [parse] at hout
  rcases hb : ldap_bind env.attempts with _ | ⟨binded, conn, err⟩ <;>
    rw [hb] at hout
  · simp at hout
  · cases binded with
    | false =>
      simp only [] at hout
      rw [if_neg (by simp : ¬ (false = true))] at hout
      have h := Option.some.inj hout
      rw [← h]
      simp
    | true =>
      simp only [] at hout
      rw [if_pos trivial] at hout
      rcases hg : getLdapData env.outcomes (some limit) page_size with
        _ | ⟨accounts, e⟩ <;> rw [hg] at hout
      · simp at hout
      · simp only [] at hout
        have h := Option.some.inj hout
        rw [← h, key accounts]
        exact List.length_take_le _ _

/-- C6 witness: a two-entry directory with limit 1 keeps only the first
normalized record. -/
theorem c6_exact_cutoff_witness :
    0 < 1 ∧
    parseLoop cfgM (some 1)
        [(none, EntryData.dict [(("mail").data, [("a@b").data])]),
         (none, EntryData.dict [(("mail").data, [("c@d").data])])] 0 =
      (parseLoop cfgM none
        [(none, EntryData.dict [(("mail").data, [("a@b").data])]),
         (none, EntryData.dict [(("mail").data, [("c@d").data])])] 0).take 1 :=
  ⟨by decide, (c6_exact_cutoff cfgM 1 (by decide)).1 _⟩

theorem mkTrace_cons (l : List RawEntry) (rest : List (List RawEntry)) :
    mkTrace (l :: rest) = PageOutcome.page l (!rest.isEmpty) :: mkTrace rest :=
  rfl

theorem getLdapDataGo_page (limit : Option Nat) (psz : Nat)
    (entries : List RawEntry) (cookie : Bool) (rest : List PageOutcome)
    (acc : List RawEntry) (pages : Nat) :
    getLdapDataGo limit psz (PageOutcome.page entries cookie :: rest) acc pages =
      if !cookie then some (acc ++ entries, none)
      else if limitTest limit (psz * (pages + 1)) then
        some (acc ++ entries, none)
      else getLdapDataGo limit psz rest (acc ++ entries) (pages + 1) :=
  rfl

theorem getLdapDataGo_zero_limit (psz : Nat) :
    ∀ (outs : List PageOutcome) (acc : List RawEntry) (pages : Nat),
      getLdapDataGo (some 0) psz outs acc pages =
        getLdapDataGo none psz outs acc pages := by
  intro outs
  induction outs with
  | nil => intro acc pages; rfl
  | cons o rest ih =>
    intro acc pages
    cases o with
    | searchErr s => rfl
    | resultErr s => rfl
    | page entries cookie =>
      cases cookie
      · rfl
      · simp only [getLdapDataGo, limitTest, Bool.not_true]
        exact ih (acc ++ entries) (pages + 1)

theorem parseLoop_zero_limit (cfg : Config) :
    ∀ (accounts : List RawEntry) (count : Nat),
      parseLoop cfg (some 0) accounts count =
        parseLoop cfg none accounts count := by
  intro accounts
  induction accounts with
  | nil => intro count; rfl
  | cons entry rest ih =>
    intro count
    obtain ⟨dn, ed⟩ := entry
    cases ed with
    | referral vals =>
      simp only [parseLoop]
      exact ih count
    | dict attrs =>
      simp only [parseLoop]
      rcases hm : dictGet attrs cfg.mail_attr with _ | ⟨_ | ⟨v, vs⟩⟩
      · exact ih count
      · exact ih count
      · simp only [limitTest_some_zero_eq_false, limitTest_none_eq_false]
        rw [ih (count + 1)]

/-- C10: a limit of 0 disables both cutoffs because the truthiness test
`if limit and ...` is false for 0: `parse` behaves exactly as with no
limit, and the engine paginates until the empty cookie, returning the entries of every page. -/
theorem c10_zero_limit :
    (∀ cfg env page_size, parse cfg env (some 0) page_size =
      parse cfg env none page_size) ∧
    (∀ pages page_size, getLdapData (mkTrace pages) (some 0) page_size =
      getLdapData (mkTrace pages) none page_size) ∧
    (∀ pages page_size, getLdapData (mkTrace pages) (some 0) page_size =
      some (pages.flatten, none)) := by
  have hgo : ∀ pages psz acc n, getLdapDataGo none psz (mkTrace pages) acc n =
      some (acc ++ pages.flatten, none) := by
    intro pages
    induction pages with
    | nil => intro psz acc n; simp [mkTrace, getLdapDataGo]
    | cons l rest ih =>
      intro psz acc n
      cases rest with
      | nil => simp [mkTrace, getLdapDataGo]
      | cons r rs =>
        rw [mkTrace_cons, getLdapDataGo_page]
        simp only [List.isEmpty_cons, Bool.not_false, Bool.not_true,
          limitTest_none_eq_false]
        rw [if_neg (by simp : ¬ (false = true)),
          if_neg (by simp : ¬ (false = true))]
        rw [ih psz (acc ++ l) (n + 1)]
        simp
  have hEngine : ∀ (outs : List PageOutcome) (page_size : Option Nat),
      getLdapData outs (some 0) page_size = getLdapData outs none page_size := by
    intro outs page_size
    rw [getLdapData, getLdapData, getLdapDataGo_zero_limit]
  refine ⟨?_, ?_, ?_⟩
  · intro cfg env page_size
    rw [parse, parse]
    rcases hb : ldap_bind env.attempts with _ | ⟨binded, conn, err⟩
    · rfl
    · cases binded with
      | false => rfl
      | true =>
        simp only []
        rw [if_pos trivial, if_pos trivial, hEngine]
        rcases hg : getLdapData env.outcomes none page_size with
          _ | ⟨accounts, e⟩
        · rfl
        · simp only []
          rw [parseLoop_zero_limit]
  · intro pages page_size
    exact hEngine (mkTrace pages) page_size
  · intro pages page_size
    rw [hEngine, getLdapData, hgo]
    simp

/-- When every attempt fails with an extractable error string, the bind
loop completes with the connection variable untouched and the failure
count equal to the number of servers. -/
theorem ldapBindGo_all_fail :
    ∀ (att : List BindAttempt),
      (∀ a ∈ att, ∃ s, a = BindAttempt.fail s ∧
        (setErrorFromLdapExc s).isSome = true) →
      ∀ (conn : Option Nat) (f : Nat) (err : Option Str),
        ∃ err2, ldapBindGo att conn f err = some (conn, f + att.length, err2) := by
  intro att
  induction att with
  | nil => intro _ conn f err; exact ⟨err, by simp [ldapBindGo]⟩
  | cons a rest ih =>
    intro h conn f err
    obtain ⟨s, ha, hs⟩ := h a (List.mem_cons_self _ _)
    subst ha
    rcases hd : setErrorFromLdapExc s with _ | d
    · rw [hd] at hs; simp at hs
    · obtain ⟨err2, he⟩ :=
        ih (fun a2 ha2 => h a2 (List.mem_cons_of_mem _ ha2)) conn (f + 1)
          (some d)

      refine ⟨err2, ?_⟩
      simp only [ldapBindGo]
      rw [hd]
      simp only []
      rw [he]
      have harith : f + 1 + rest.length = f + (rest.length + 1) := by omega
      rw [harith]
      rfl

/-- C8: when every bind attempt fails (vacuously so for an empty server
list) with a well-formed error payload, `_ldap_bind` returns false with no
connection retained, and `parse` returns the empty list for every
directory content, every limit and every page size — the independence from
`outcomes` expressing that no query is issued. -/
theorem c8_bind_all_fail (cfg : Config) (attempts : List BindAttempt)
    (hfail : ∀ a ∈ attempts, ∃ s, a = BindAttempt.fail s ∧
      (setErrorFromLdapExc s).isSome = true) :
    (∃ err, ldap_bind attempts = some (false, none, err)) ∧
    (∀ outcomes limit page_size,
      parse cfg ⟨attempts, outcomes⟩ limit page_size = some []) := by
  obtain ⟨err2, he⟩ := ldapBindGo_all_fail attempts hfail none 0 none
  have hbind : ldap_bind attempts = some (false, none, err2) := by
    rw [ldap_bind, he]
    simp
  refine ⟨⟨err2, hbind⟩, ?_⟩
  intro outcomes limit page_size
  rw [parse]
  simp only []
  rw [hbind]
  simp

/-- C8 witness: the empty server list, where failure is immediate. -/
theorem c8_bind_all_fail_witness :
    parse cfgM ⟨[], []⟩ none none = some [] :=
  (c8_bind_all_fail cfgM []
    (fun a ha => absurd ha (List.not_mem_nil a))).2 [] none none

/-- C4: whenever a search request or result fetch raises a protocol error
whose string form carries exactly one `desc` marker (the well-formed
python-ldap payload), the engine returns the empty entry list — discarding
all pages already collected — together with the stripped description as
the recorded last error, and no exception propagates (the result is
`some`, not the `none` that models an escaping exception). -/
theorem c4_error_swallow (pages : List (List RawEntry)) (s d : Str)
    (e : PageOutcome)
    (he : e = PageOutcome.searchErr s ∨ e = PageOutcome.resultErr s)
    (hd : setErrorFromLdapExc s = some d)
    (limit : Option Nat) (page_size : Option Nat)
    (hstop : ∀ j, j ≤ pages.length →
      limitTest limit (pyOrNat page_size 500 * j) = false) :
    getLdapData ((pages.map (fun l => PageOutcome.page l true)) ++ [e])
      limit page_size = some ([], some d) := by
  have hgo : ∀ (ps : List (List RawEntry)) (acc : List RawEntry) (n : Nat),
      (∀ j, j ≤ ps.length →
        limitTest limit (pyOrNat page_size 500 * (n + j)) = false) →
      getLdapDataGo limit (pyOrNat page_size 500)
        ((ps.map (fun l => PageOutcome.page l true)) ++ [e]) acc n =
        some ([], some d) := by
    intro ps
    induction ps with
    | nil =>
      intro acc n _
      rcases he with he | he <;> subst he <;> simp [getLdapDataGo, hd]
    | cons l rest ih =>
      intro acc n hstop2
      simp only [List.map_cons, List.cons_append, getLdapDataGo_page]
      rw [if_neg (by simp : ¬ ((!true) = true))]
      rw [hstop2 1 (by simp), if_neg (by simp : ¬ (false = true))]
      refine ih (acc ++ l) (n + 1) (fun j hj => ?_)
      have h2 := hstop2 (j + 1) (by simpa using Nat.succ_le_succ hj)
      rwa [show n + (j + 1) = n + 1 + j by omega] at h2
  rw [getLdapData]
  refine hgo pages [] 0 (fun j hj => ?_)
  rw [Nat.zero_add]
  exact hstop j hj

/-- C4 witness: a single failing search with a typical python-ldap error
string; the engine returns no entries and records the stripped `desc`. -/
theorem c4_error_swallow_witness :
    getLdapData [PageOutcome.searchErr (("x 'desc': 'boom'").data)] none none =
      some ([], some (("boom").data)) :=
  c4_error_swallow [] (("x 'desc': 'boom'").data) (("boom").data)
    (PageOutcome.searchErr (("x 'desc': 'boom'").data)) (Or.inl rfl)
    (by decide) none none (fun j hj => rfl)

/-- The pagination loop over a well-formed page trace consumes an initial
segment of the pages: it returns the accumulated entries of the first `k`
pages, where every earlier page count kept `page_size * pages < limit` and
the loop stopped either at the final page (empty cookie) or at the first
page count reaching the limit. -/
theorem getLdapDataGo_mkTrace_spec (limit page_size : Nat) (hlim : 0 < limit) :
    ∀ (ps : List (List RawEntry)) (acc : List RawEntry) (n : Nat),
      ∃ k, k ≤ ps.length ∧
        getLdapDataGo (some limit) page_size (mkTrace ps) acc n =
          some (acc ++ (ps.take k).flatten, none) ∧
        (∀ j, 0 < j → j < k → page_size * (n + j) < limit) ∧
        (k = ps.length ∨ limit ≤ page_size * (n + k)) := by
  intro ps
  induction ps with
  | nil =>
    intro acc n
    refine ⟨0, Nat.le_refl 0, by simp [mkTrace, getLdapDataGo], ?_, Or.inl rfl⟩
    intro j hj hj0
    omega
  | cons l rest ih =>
    intro acc n
    cases rest with
    | nil =>
      refine ⟨1, by simp, ?_, ?_, Or.inl (by simp)⟩
      · simp [mkTrace, getLdapDataGo]
      · intro j hj hj1; omega
    | cons r rs =>
      by_cases hl : limit ≤ page_size * (n + 1)
      · refine ⟨1, by simp, ?_, ?_, Or.inr (by simpa using hl)⟩
        · rw [mkTrace_cons, getLdapDataGo_page]
          simp only [List.isEmpty_cons, Bool.not_false, Bool.not_true]
          rw [if_neg (by simp : ¬ (false = true))]
          rw [if_pos (by simp [limitTest]; omega :
            limitTest (some limit) (page_size * (n + 1)) = true)]
          simp
        · intro j hj hj1; omega
      · obtain ⟨k2, hk2le, heq, hcond, hstop⟩ :=
          ih (acc ++ l) (n + 1)
        refine ⟨k2 + 1, by simpa using Nat.succ_le_succ hk2le, ?_, ?_, ?_⟩
        · rw [mkTrace_cons, getLdapDataGo_page]
          simp only [List.isEmpty_cons, Bool.not_false, Bool.not_true]
          rw [if_neg (by simp : ¬ (false = true))]
          rw [if_neg (by simp [limitTest]; omega :
            ¬ (limitTest (some limit) (page_size * (n + 1)) = true))]
          rw [heq]
          simp [List.take_succ_cons]
        · intro j hj1 hjk
          rcases Nat.lt_or_ge j 2 with hj2 | hj2
          · have hj1e : j = 1 := by omega
            subst hj1e
            exact Nat.lt_of_not_le hl
          · have := hcond (j - 1) (by omega) (by omega)
            rwa [show n + 1 + (j - 1) = n + j by omega] at this
        · rcases hstop with h | h
          · left; simp [h]
          · right
            rwa [show n + 1 + k2 = n + (k2 + 1) by omega] at h

/-- C1: with a positive limit and server pages of at most `page_size`
entries each, the engine returns every entry of an initial segment of `k`
fetched pages, stopping at the first page count with
`page_size * pages >= limit` or earlier at the empty cookie; the returned
entry count exceeds the limit by at most `page_size - 1`; and on the
concrete 500/500/200 trace with limit 600 the engine stops after page 2
with 1000 raw entries. -/
theorem c1_pagination (ps : List (List RawEntry)) (limit page_size : Nat)
    (hlim : 0 < limit) (hps : 0 < page_size)
    (hsz : ∀ l ∈ ps, l.length ≤ page_size) :
    (∃ k, k ≤ ps.length ∧
      getLdapData (mkTrace ps) (some limit) (some page_size) =
        some ((ps.take k).flatten, none) ∧
      (∀ j, j < k → page_size * j < limit) ∧
      (k = ps.length ∨ limit ≤ page_size * k) ∧
      (ps.take k).flatten.length < limit + page_size) ∧
    getLdapData
        (mkTrace [List.replicate 500 refEntry, List.replicate 500 refEntry,
          List.replicate 200 refEntry]) (some 600) (some 500) =
      some (List.replicate 1000 refEntry, none) := by
  constructor
  · obtain ⟨k, hkle, heq, hcond, hstop⟩ :=
      getLdapDataGo_mkTrace_spec limit page_size hlim ps [] 0
    have hcond0 : ∀ j, j < k → page_size * j < limit := by
      intro j hj
      rcases Nat.eq_zero_or_pos j with h0 | hpos
      · subst h0; simpa using hlim
      · have := hcond j hpos hj
        rwa [Nat.zero_add] at this
    have hpysz : pyOrNat (some page_size) 500 = page_size := by
      simp [pyOrNat, Nat.pos_iff_ne_zero.mp hps]
    have hlen : (ps.take k).flatten.length ≤ (ps.take k).length * page_size := by
      rw [List.length_flatten]
      have hb : ∀ x ∈ (ps.take k).map List.length, x ≤ page_size := by
        intro x hx
        obtain ⟨l, hlm, rfl⟩ := List.mem_map.mp hx
        exact hsz l (List.take_subset k ps hlm)
      have hs := List.sum_le_card_nsmul ((ps.take k).map List.length)
        page_size hb
      simpa [smul_eq_mul] using hs
    refine ⟨k, hkle, ?_, hcond0, ?_, ?_⟩
    · rw [getLdapData, hpysz]
      simpa using heq
    · rcases hstop with h | h
      · exact Or.inl h
      · right; rwa [Nat.zero_add] at h
    · cases k with
      | zero => simpa using by omega
      | succ k0 =>
        have hlast : page_size * k0 < limit := hcond0 k0 (Nat.lt_succ_self k0)
        calc (ps.take (k0 + 1)).flatten.length
            ≤ (ps.take (k0 + 1)).length * page_size := hlen
          _ ≤ (k0 + 1) * page_size :=
              Nat.mul_le_mul_right page_size (List.length_take_le _ _)
          _ = k0 * page_size + page_size := Nat.succ_mul k0 page_size
          _ = page_size * k0 + page_size := by rw [Nat.mul_comm]
          _ < limit + page_size := Nat.add_lt_add_right hlast page_size
  · rw [getLdapData]
    have hsz500 : pyOrNat (some 500) 500 = 500 := rfl
    rw [hsz500, mkTrace_cons, getLdapDataGo_page]
    simp only [List.isEmpty_cons, Bool.not_false, Bool.not_true]
    rw [if_neg (by simp : ¬ (false = true))]
    rw [if_neg (by decide :
      ¬ (limitTest (some 600) (500 * (0 + 1)) = true))]
    rw [mkTrace_cons, getLdapDataGo_page]
    simp only [List.isEmpty_cons, Bool.not_false, Bool.not_true]
    rw [if_neg (by simp : ¬ (false = true))]
    rw [if_pos (by decide :
      limitTest (some 600) (500 * (0 + 1 + 1)) = true)]
    rw [List.nil_append, ← List.replicate_add]

/-- C1 witness: the general clause instantiated on a one-page directory
with a single entry, limit 1 and page size 1. -/
theorem c1_pagination_witness :
    ∃ k, k ≤ ([[refEntry]] : List (List RawEntry)).length ∧
      getLdapData (mkTrace [[refEntry]]) (some 1) (some 1) =
        some (([[refEntry]].take k).flatten, none) ∧
      (∀ j, j < k → 1 * j < 1) ∧
      (k = ([[refEntry]] : List (List RawEntry)).length ∨ 1 ≤ 1 * k) ∧
      ([[refEntry]].take k).flatten.length < 1 + 1 :=
  (c1_pagination [[refEntry]] 1 1 (by decide) (by decide)
    (by intro l hl; simp at hl; simp [hl])).1

/-- C9 (amended): the attribute list sent with the search request is the
email attribute prepended to the alias attributes with no deduplication;
it is duplicate-free exactly when the email attribute does not occur among
the alias attributes and the alias attributes are themselves distinct. -/
theorem c9_attr_list (cfg : Config) :
    attr_list cfg = cfg.mail_attr :: cfg.aliases_attrs ∧
    ((attr_list cfg).Nodup ↔
      cfg.mail_attr ∉ cfg.aliases_attrs ∧ cfg.aliases_attrs.Nodup) :=
  ⟨rfl, by simp [attr_list, List.nodup_cons]⟩

end LdapSync
